import Mathlib

/-!
Shallow embedding of the alx-backend repository: the pagination servers
(`0x00-pagination/1-simple_pagination.py`, `0x00-pagination/2-hypermedia_pagination.py`,
`2-hypermedia_pagination.py` together with `0x00-pagination/0-simple_helper_function.py`,
and `0x00-pagination/3-hypermedia_del_pagination.py`) and the FIFO cache
(`0x01-caching/1-fifo_cache.py`).

Python `int` arguments that the code sign-checks are embedded as `Int`;
list positions and lengths are `Nat`.  A Python dict is embedded as an
association list with unique keys: assignment updates in place when the key
is present (preserving insertion order, as CPython dicts do) and appends
otherwise; `del` removes the (unique) entry with the key.  Functions that can
raise are embedded in `Except String`, the string naming the Python exception.
-/

variable {α : Type} {β : Type} {ε : Type} {κ : Type} {ν : Type}

/-- Lookup in an association list, embedding Python `d.get(k)` / `d[k]`. -/
def lookupKV [DecidableEq κ] (k : κ) : List (κ × ν) → Option ν
  | [] => none
  | (k', v) :: rest => if k = k' then some v else lookupKV k rest

/-- Embedding of Python `k in d` for a dict represented as an association list. -/
def containsKey [DecidableEq κ] (k : κ) (l : List (κ × ν)) : Bool :=
  (lookupKV k l).isSome

/-- Embedding of Python dict assignment `d[k] = v`: update in place when the key
is present (keeping its position, as CPython insertion-ordered dicts do),
append at the end otherwise. -/
def insertKV [DecidableEq κ] (k : κ) (v : ν) : List (κ × ν) → List (κ × ν)
  | [] => [(k, v)]
  | (k', v') :: rest => if k = k' then (k', v) :: rest else (k', v') :: insertKV k v rest

/-- Embedding of Python `del d[k]` on a dict with unique keys: remove the first
(hence only) entry whose key is `k`. -/
def eraseKey [DecidableEq κ] (k : κ) : List (κ × ν) → List (κ × ν)
  | [] => []
  | (k', v') :: rest => if k = k' then rest else (k', v') :: eraseKey k rest

/-- Value of an `Except` computation, with a default for the error case. -/
def okD (e : Except ε (List α)) : List α :=
  match e with
  | .ok l => l
  | .error _ => []

/-- Boolean success test for an `Except` computation. -/
def isOkB (e : Except ε β) : Bool :=
  match e with
  | .ok _ => true
  | .error _ => false

/-- Ceiling division on naturals: embedding of Python `math.ceil(L / ps)`
for nonnegative `L` and positive `ps` (exact since both are integers). -/
def ceilPages (L ps : Nat) : Nat := (L + ps - 1) / ps

namespace SimplePagination

/-- Embedding of `index_range` from `0x00-pagination/1-simple_pagination.py`:
`start_index = (page - 1) * page_size`, `end_index = start_index + page_size`. -/
def index_range (page page_size : Int) : Int × Int :=
  ((page - 1) * page_size, (page - 1) * page_size + page_size)

/-- Embedding of `Server.get_page` from `0x00-pagination/1-simple_pagination.py`:
assert both arguments positive, compute the slice bounds with `index_range`,
return `[]` when the start is past the dataset, else the slice
`dataset[start:end]`.  The cached dataset is passed explicitly. -/
def get_page (dataset : List α) (page page_size : Int) : Except String (List α) :=
  if 0 < page ∧ 0 < page_size then
    let se := index_range page page_size
    if (dataset.length : Int) ≤ se.1 then .ok []
    else .ok ((dataset.drop se.1.toNat).take (se.2 - se.1).toNat)
  else .error "AssertionError"

end SimplePagination

namespace HyperPagination

/-- Embedding of `index_range` from `0x00-pagination/2-hypermedia_pagination.py`:
`(page - 1) * page_size` and `page * page_size`. -/
def index_range (page page_size : Int) : Int × Int :=
  ((page - 1) * page_size, page * page_size)

/-- Embedding of `Server.get_page` from `0x00-pagination/2-hypermedia_pagination.py`
(same behaviour as the simple variant: assert, bound-check, slice). -/
def get_page (dataset : List α) (page page_size : Int) : Except String (List α) :=
  if 0 < page ∧ 0 < page_size then
    let se := index_range page page_size
    if (dataset.length : Int) ≤ se.1 then .ok []
    else .ok ((dataset.drop se.1.toNat).take (se.2 - se.1).toNat)
  else .error "AssertionError"

/-- Response dictionary of `Server.get_hyper` in
`0x00-pagination/2-hypermedia_pagination.py`. -/
structure HyperPage (α : Type) where
  page_size : Nat
  page : Int
  data : List α
  next_page : Option Int
  prev_page : Option Int
  total_pages : Nat

/-- Embedding of `Server.get_hyper` from `0x00-pagination/2-hypermedia_pagination.py`:
call `get_page` (whose asserts may fail), then build the hypermedia dict with
`total_pages = math.ceil(len(dataset) / page_size)`,
`next_page = page + 1 if page * page_size < len(dataset) else None`, and
`prev_page = page - 1 if page > 1 else None`. -/
def get_hyper (dataset : List α) (page page_size : Int) :
    Except String (HyperPage α) :=
  match get_page dataset page page_size with
  | .error e => .error e
  | .ok page_data =>
    .ok { page_size := page_data.length,
          page := page,
          data := page_data,
          next_page := if page * page_size < (dataset.length : Int) then some (page + 1) else none,
          prev_page := if 1 < page then some (page - 1) else none,
          total_pages := ceilPages dataset.length page_size.toNat }

end HyperPagination

namespace HyperPaginationAlt

/-- Embedding of `index_range` from `0x00-pagination/0-simple_helper_function.py`
(used by the top-level `2-hypermedia_pagination.py`): a loop running `page`
times with `start = end; end += page_size`, starting from `(0, 0)`. -/
def index_range (page page_size : Int) : Int × Int :=
  (List.range page.toNat).foldl (fun se _ => (se.2, se.2 + page_size)) ((0 : Int), (0 : Int))

/-- Embedding of `Server.get_page` from the top-level `2-hypermedia_pagination.py`:
assert both arguments positive (via `assert_positive_integer_type`), then return
the slice `dataset[start:end]`; the `try/except IndexError` never fires since
Python slicing is total, and slicing past the end yields `[]`. -/
def get_page (dataset : List α) (page page_size : Int) : Except String (List α) :=
  if 0 < page ∧ 0 < page_size then
    let se := index_range page page_size
    .ok ((dataset.drop se.1.toNat).take (se.2 - se.1).toNat)
  else .error "AssertionError"

/-- Response dictionary of `Server.get_hyper` in the top-level
`2-hypermedia_pagination.py`. -/
structure AltHyperPage (α : Type) where
  page : Int
  page_size : Int
  total_pages : Int
  data : List α
  prev_page : Option Int
  next_page : Option Int

/-- Embedding of `Server.get_hyper` from the top-level `2-hypermedia_pagination.py`:
first computes `total_pages = len(dataset) // page_size + 1` (Python floor
division -- a `ZeroDivisionError` when `page_size = 0`), then calls `get_page`
(whose asserts may fail), then builds the dict with
`page_size = page_size if page_size <= len(data) else len(data)` and
`next_page = page + 1 if page + 1 <= total_pages else None`. -/
def get_hyper (dataset : List α) (page page_size : Int) :
    Except String (AltHyperPage α) :=
  if page_size = 0 then .error "ZeroDivisionError"
  else
    let tp : Int := (dataset.length : Int).fdiv page_size + 1
    match get_page dataset page page_size with
    | .error e => .error e
    | .ok data =>
      .ok { page := page,
            page_size := if page_size ≤ (data.length : Int) then page_size else (data.length : Int),
            total_pages := tp,
            data := data,
            prev_page := if 1 < page then some (page - 1) else none,
            next_page := if page + 1 ≤ tp then some (page + 1) else none }

end HyperPaginationAlt

namespace DelPagination

/-- Embedding of `Server.indexed_dataset` from
`0x00-pagination/3-hypermedia_del_pagination.py`: the comprehension
`{i: dataset[i] for i in range(len(dataset))}`, i.e. every position of the
dataset paired with its record (`List.enum`).  Note the code indexes the whole
dataset; no truncation to 1000 entries is performed. -/
def indexed_dataset (dataset : List α) : List (Nat × α) :=
  dataset.enum

/-- Response dictionary of `Server.get_hyper_index` in
`0x00-pagination/3-hypermedia_del_pagination.py`.  The `index` field holds the
argument exactly as passed (`None` stays `None`). -/
structure HyperIndexPage (α : Type) where
  index : Option Nat
  next_index : Option Nat
  page_size : Nat
  data : List α

/-- Embedding of the `while` loop of `get_hyper_index`:
`while len(data) < page_size and current_index < n` where
`n = len(indexed_data)`; present positions are appended to `data`, absent ones
are skipped, and `current_index` always advances.  The fuel argument is
`n - current_index`, which bounds the remaining iterations, so the fuel-0
base case is only reached when the loop condition is false. -/
def page_loop (indexed_data : List (Nat × α)) (n page_size : Nat) :
    Nat → Nat → List α → List α × Nat
  | 0, current_index, data => (data, current_index)
  | fuel + 1, current_index, data =>
    if data.length < page_size ∧ current_index < n then
      match lookupKV current_index indexed_data with
      | some record => page_loop indexed_data n page_size fuel (current_index + 1) (data ++ [record])
      | none => page_loop indexed_data n page_size fuel (current_index + 1) data
    else (data, current_index)

/-- Embedding of `Server.get_hyper_index` from
`0x00-pagination/3-hypermedia_del_pagination.py`.  The snapshot
(`indexed_data`, possibly with positions deleted) is passed explicitly.
No argument validation is performed.  `current_index` starts at the given
index, or 0 when `None`; the loop is bounded by `len(indexed_data)`;
`next_index = current_index if current_index < len(indexed_data) else None`;
and the response's `index` field is the argument as passed. -/
def get_hyper_index (indexed_data : List (Nat × α)) (index : Option Nat)
    (page_size : Nat) : HyperIndexPage α :=
  let n := indexed_data.length
  let start := match index with | some i => i | none => 0
  let r := page_loop indexed_data n page_size (n - start) start []
  { index := index,
    next_index := if r.2 < n then some r.2 else none,
    page_size := r.1.length,
    data := r.1 }

/-- Number of live records of a snapshot at positions at or after `start`
(the count the specification says a page is filled from). -/
def liveFrom (indexed_data : List (Nat × α)) (start : Nat) : Nat :=
  (indexed_data.filter (fun p => start ≤ p.1)).length

end DelPagination

namespace Caching

/-- Modelled from the spec: `BaseCaching` (its file `base_caching.py` is not in
the repository sources; only `0x01-caching/*.py` subclass it).  Per the spec it
supplies the dict `cache_data` and the configured capacity `MAX_ITEMS`
(construction requires `MAX_ITEMS >= 1`).  `FIFOCache.__init__` adds the
insertion-order list `order`. -/
structure FIFOCache (κ ν : Type) where
  max_items : Nat
  cache_data : List (κ × ν)
  order : List κ

/-- A fresh `FIFOCache` with the given capacity: empty dict, empty order list. -/
def mkCache (max_items : Nat) : FIFOCache κ ν :=
  { max_items := max_items, cache_data := [], order := [] }

/-- Embedding of `FIFOCache.put` from `0x01-caching/1-fifo_cache.py`.
`None` key or item: no-op.  Otherwise, when the dict already holds
`MAX_ITEMS` entries and the key is new, the victim `order[0]` is discarded
(an `IndexError` if `order` is empty, a `KeyError` if `order[0]` is no longer
a key of `cache_data`); then the key is appended to `order` (unconditionally,
even on overwrite) and assigned in `cache_data`.  The returned `Option κ` is
the eviction notification (the `DISCARD:` print). -/
def put [DecidableEq κ] (c : FIFOCache κ ν) (key : Option κ) (item : Option ν) :
    Except String (FIFOCache κ ν × Option κ) :=
  match key, item with
  | some k, some v =>
    let length := c.cache_data.length
    if c.max_items ≤ length ∧ containsKey k c.cache_data = false then
      match c.order.head? with
      | none => .error "IndexError"
      | some victim =>
        if containsKey victim c.cache_data = true then
          .ok ({ c with
                  cache_data := insertKV k v (eraseKey victim c.cache_data),
                  order := c.order.tail ++ [k] }, some victim)
        else .error "KeyError"
    else
      .ok ({ c with
              cache_data := insertKV k v c.cache_data,
              order := c.order ++ [k] }, none)
  | _, _ => .ok (c, none)

/-- Embedding of `FIFOCache.get` from `0x01-caching/1-fifo_cache.py`: the value
linked to the key, or `None` for a `None` or absent key.  It never mutates. -/
def get [DecidableEq κ] (c : FIFOCache κ ν) (key : Option κ) : Option ν :=
  match key with
  | some k => lookupKV k c.cache_data
  | none => none

/-- Run a sequence of (non-`None`) `put` calls, collecting the eviction
notifications in order; stops at the first raised exception. -/
def putList [DecidableEq κ] (c : FIFOCache κ ν) :
    List (κ × ν) → Except String (FIFOCache κ ν × List κ)
  | [] => .ok (c, [])
  | (k, v) :: rest =>
    match put c (some k) (some v) with
    | .error e => .error e
    | .ok (c1, ev) =>
      match putList c1 rest with
      | .error e => .error e
      | .ok (c2, evs) => .ok (c2, ev.toList ++ evs)

/-- States reachable from a fresh cache by sequences of `put` and `get` calls.
`get` does not mutate (it is a pure function in this embedding) and a `put`
that raises leaves the Python object unmutated (the failing `del` raises
before any assignment), so the reachable states are exactly those produced by
successful `put` steps from a validly constructed cache (`MAX_ITEMS >= 1`,
per the spec's construction-time requirement). -/
inductive Reachable [DecidableEq κ] : FIFOCache κ ν → Prop
  | init (max_items : Nat) (h : 1 ≤ max_items) :
      Reachable (mkCache max_items)
  | step {c c' : FIFOCache κ ν} (key : Option κ) (item : Option ν) (ev : Option κ)
      (hc : Reachable c) (hp : put c key item = .ok (c', ev)) : Reachable c'

end Caching

/-- Auxiliary: with `page_size = 0` the `get_hyper_index` loop body never runs
(the condition `len(data) < page_size` is false), so it returns its
accumulator and cursor unchanged. -/
theorem page_loop_zero_size {α : Type} (l : List (Nat × α)) (n : Nat) (fuel cur : Nat)
    (data : List α) : DelPagination.page_loop l n 0 fuel cur data = (data, cur) := by
  cases fuel <;> simp [DelPagination.page_loop]

/-- C1: `get_hyper_index` bounds its scan by `len(indexed_data)` -- the number
of live entries -- instead of the snapshot's position range, so live records at
positions past that count are unreachable.  On the snapshot with live positions
{0, 5} (positions 1-4 deleted), a request for a page of 2 starting at index 0
returns only 1 record although 2 live records sit at positions >= 0; the claim
demands `min(page_size, live) = 2` records. -/
theorem C1_gap_truncates_page :
    (DelPagination.get_hyper_index [(0, 100), (5, 105)] (some 0) 2).data = [100] ∧
    DelPagination.liveFrom [(0, 100), (5, 105)] 0 = 2 ∧
    (DelPagination.get_hyper_index [(0, 100), (5, 105)] (some 0) 2).data.length ≠
      min 2 (DelPagination.liveFrom [(0, 100), (5, 105)] 0) := by
  decide

/-- C2 counterexample: insert A=1, B=2, C=3 into a FIFO cache of capacity 3,
overwrite A, then insert D=4.  The insertion of D evicts A (the only eviction
notification is for key 1) and A is absent afterwards -- not, as the claim
states, B evicted with A remaining. -/
theorem C2_counterexample :
    (Caching.putList (Caching.mkCache 3 : Caching.FIFOCache Nat Nat)
        [(1, 10), (2, 20), (3, 30), (1, 11), (4, 40)]).toOption.map
      (fun r => (r.2, Caching.get r.1 (some 1))) = some ([1], none) ∧
    some (([1] : List Nat), (none : Option Nat)) ≠ some ([2], some 11) := by
  decide

/-- C2 amended: in the scenario insert A, B, C (capacity 3), overwrite A,
insert D, the insertion of D evicts A -- the first-inserted key, whose front
position in the order list the overwrite did not change (it only appended a
stale duplicate of A) -- and B, C, D remain present afterwards. -/
theorem C2_overwrite_keeps_position :
    Caching.putList (Caching.mkCache 3 : Caching.FIFOCache Nat Nat)
        [(1, 10), (2, 20), (3, 30), (1, 11), (4, 40)] =
      .ok ({ max_items := 3,
             cache_data := [(2, 20), (3, 30), (4, 40)],
             order := [2, 3, 1, 4] }, [1]) := by
  rfl

/-- C3: `FIFOCache.put` can raise.  With capacity 1: put A, overwrite A (which
appends a stale duplicate of A to `order`), put B (evicts A, removing only the
first `order` occurrence), put C -- eviction now selects the stale `order[0] = A`,
and `del self.cache_data[A]` raises `KeyError`.  The same failure occurs at
capacity 4 (the `BaseCaching.MAX_ITEMS` of the upstream project): fill with
four keys, overwrite the first, then insert five more fresh keys. -/
theorem C3_put_raises_keyerror :
    Caching.putList (Caching.mkCache 1 : Caching.FIFOCache Nat Nat)
        [(1, 10), (1, 11), (2, 20), (3, 30)] = .error "KeyError" ∧
    Caching.putList (Caching.mkCache 4 : Caching.FIFOCache Nat Nat)
        [(1, 1), (2, 2), (3, 3), (4, 4), (1, 10), (5, 5), (6, 6), (7, 7), (8, 8), (9, 9)] =
      .error "KeyError" := by
  exact ⟨rfl, rfl⟩

/-- C4: `indexed_dataset` builds `{i: dataset[i] for i in range(len(dataset))}`
with no truncation, contradicting its own docstring ("a truncated copy of the
data containing the first 1000 entries"): on a dataset of length 1001 the
snapshot holds 1001 entries, exceeding the claimed 1000 bound. -/
theorem C4_indexed_dataset_unbounded :
    (DelPagination.indexed_dataset (List.range 1001)).length = 1001 ∧
    1000 < (DelPagination.indexed_dataset (List.range 1001)).length := by
  refine ⟨?_, ?_⟩ <;> simp [DelPagination.indexed_dataset]

/-- C5 counterexample: `get_hyper_index` performs no argument validation.
Called with `page_size = 0` (not a positive integer) it does not fail with an
assertion but returns a normal response dictionary with empty data. -/
theorem C5_counterexample :
    DelPagination.get_hyper_index [(0, (7 : Nat))] (some 0) 0 =
      { index := some 0, next_index := some 0, page_size := 0, data := [] } := by
  rfl

/-- C5 amended: `get_page` (both variants) and `get_hyper` raise
`AssertionError` whenever `page` or `page_size` is not positive, before any
state mutation (the embedding is pure; the Python asserts run first); but
`get_hyper_index` performs no validation and returns a normal response with
empty data for `page_size = 0`. -/
theorem C5_validation {α : Type} (ds : List α) (page page_size : Int)
    (h : ¬(0 < page ∧ 0 < page_size)) :
    SimplePagination.get_page ds page page_size = .error "AssertionError" ∧
    HyperPagination.get_page ds page page_size = .error "AssertionError" ∧
    HyperPagination.get_hyper ds page page_size = .error "AssertionError" ∧
    ∀ (snap : List (Nat × α)) (idx : Option Nat),
      (DelPagination.get_hyper_index snap idx 0).data = [] ∧
      (DelPagination.get_hyper_index snap idx 0).page_size = 0 := by
  refine ⟨?_, ?_, ?_, ?_⟩
  · simp [SimplePagination.get_page, h]
  · simp [HyperPagination.get_page, h]
  · simp [HyperPagination.get_hyper, HyperPagination.get_page, h]
  · intro snap idx
    simp [DelPagination.get_hyper_index, page_loop_zero_size]

/-- Witness for C5: at the concrete input `page = 0`, `page_size = 7` on a
one-row dataset, `get_page` raises `AssertionError`. -/
theorem C5_validation_witness :
    SimplePagination.get_page ([5] : List Nat) 0 7 = .error "AssertionError" :=
  (C5_validation [5] 0 7 (by decide)).1

/-- C9 counterexample: when the start index is omitted (`None` is passed),
`get_hyper_index` echoes `None` in the response's `index` field rather than
the default start 0 that was actually used. -/
theorem C9_counterexample :
    (DelPagination.get_hyper_index [(0, (7 : Nat))] none 1).index = none ∧
    (DelPagination.get_hyper_index [(0, (7 : Nat))] none 1).index ≠ some 0 := by
  decide

/-- C9 amended: the `index` field of the `get_hyper_index` response is the
`index` argument exactly as passed: for a non-`None` start it equals the start
actually used, and for `None` it is `None` (while the start actually used
defaults to 0). -/
theorem C9_index_echoes_argument {α : Type} (snap : List (Nat × α))
    (idx : Option Nat) (ps : Nat) :
    (DelPagination.get_hyper_index snap idx ps).index = idx :=
  rfl

/-- Auxiliary: a key has a lookup result exactly when it is among the keys. -/
theorem lookupKV_isSome_iff [DecidableEq κ] (k : κ) (l : List (κ × ν)) :
    (lookupKV k l).isSome = true ↔ k ∈ l.map Prod.fst := by
  induction l with
  | nil => simp [lookupKV]
  | cons p rest ih =>
    obtain ⟨k', v⟩ := p
    by_cases h : k = k' <;> simp [lookupKV, h, ih]

/-- Auxiliary: `containsKey` is membership among the keys. -/
theorem containsKey_iff [DecidableEq κ] (k : κ) (l : List (κ × ν)) :
    containsKey k l = true ↔ k ∈ l.map Prod.fst := by
  rw [containsKey, lookupKV_isSome_iff]

/-- Auxiliary: `containsKey` is false exactly for absent keys. -/
theorem containsKey_eq_false_iff [DecidableEq κ] (k : κ) (l : List (κ × ν)) :
    containsKey k l = false ↔ k ∉ l.map Prod.fst := by
  rw [← containsKey_iff k l]
  cases containsKey k l <;> simp

/-- Auxiliary: an entry of `insertKV k v l` either has key `k` or was in `l`. -/
theorem mem_insertKV [DecidableEq κ] {k : κ} {v : ν} {l : List (κ × ν)} {p : κ × ν}
    (hp : p ∈ insertKV k v l) : p.1 = k ∨ p ∈ l := by
  induction l with
  | nil =>
    simp [insertKV] at hp
    left; rw [hp]
  | cons q rest ih =>
    obtain ⟨k', v'⟩ := q
    by_cases h : k = k'
    · simp only [insertKV, if_pos h] at hp
      rcases List.mem_cons.mp hp with h1 | h1
      · left; rw [h1, ← h]
      · right; exact List.mem_cons_of_mem _ h1
    · simp only [insertKV, if_neg h] at hp
      rcases List.mem_cons.mp hp with h1 | h1
      · right; rw [h1]; exact List.mem_cons_self _ _
      · rcases ih h1 with h2 | h2
        · left; exact h2
        · right; exact List.mem_cons_of_mem _ h2

/-- Auxiliary: the keys after an assignment are unchanged for an overwrite and
gain `k` at the end for a fresh key (Python dict semantics). -/
theorem keys_insertKV [DecidableEq κ] (k : κ) (v : ν) (l : List (κ × ν)) :
    (insertKV k v l).map Prod.fst =
      if containsKey k l = true then l.map Prod.fst else l.map Prod.fst ++ [k] := by
  induction l with
  | nil => simp [insertKV, containsKey, lookupKV]
  | cons q rest ih =>
    obtain ⟨k', v'⟩ := q
    by_cases h : k = k'
    · simp [insertKV, containsKey, lookupKV, if_pos h, h]
    · simp only [insertKV, if_neg h, List.map_cons, ih, containsKey, lookupKV]
      by_cases h2 : (lookupKV k rest).isSome = true <;> simp [h, h2]

/-- Auxiliary: assigning a fresh key appends the new entry. -/
theorem insertKV_of_not_contains [DecidableEq κ] {k : κ} (v : ν) {l : List (κ × ν)}
    (h : containsKey k l = false) : insertKV k v l = l ++ [(k, v)] := by
  induction l with
  | nil => rfl
  | cons q rest ih =>
    obtain ⟨k', v'⟩ := q
    by_cases hk : k = k'
    · rw [containsKey, lookupKV, if_pos hk] at h
      simp at h
    · rw [containsKey, lookupKV, if_neg hk] at h
      rw [insertKV, if_neg hk, ih h, List.cons_append]

/-- Auxiliary: deleting a key keeps a sublist of the keys. -/
theorem keys_eraseKey_sublist [DecidableEq κ] (k : κ) (l : List (κ × ν)) :
    ((eraseKey k l).map Prod.fst).Sublist (l.map Prod.fst) := by
  induction l with
  | nil => simp [eraseKey]
  | cons q rest ih =>
    obtain ⟨k', v'⟩ := q
    by_cases h : k = k'
    · rw [eraseKey, if_pos h, List.map_cons]
      exact List.sublist_cons_self _ _
    · rw [eraseKey, if_neg h, List.map_cons, List.map_cons]
      exact ih.cons₂ k'

/-- Auxiliary: entries surviving a deletion were already present. -/
theorem mem_eraseKey [DecidableEq κ] {k : κ} {l : List (κ × ν)} {p : κ × ν}
    (hp : p ∈ eraseKey k l) : p ∈ l := by
  induction l with
  | nil => simp [eraseKey] at hp
  | cons q rest ih =>
    obtain ⟨k', v'⟩ := q
    by_cases h : k = k'
    · rw [eraseKey, if_pos h] at hp
      exact List.mem_cons_of_mem _ hp
    · rw [eraseKey, if_neg h] at hp
      rcases List.mem_cons.mp hp with h1 | h1
      · rw [h1]; exact List.mem_cons_self _ _
      · exact List.mem_cons_of_mem _ (ih h1)

/-- Auxiliary: on a dict with unique keys, no surviving entry of
`eraseKey k l` has key `k`. -/
theorem mem_eraseKey_ne [DecidableEq κ] {k : κ} {l : List (κ × ν)} {p : κ × ν}
    (hnd : (l.map Prod.fst).Nodup) (hp : p ∈ eraseKey k l) : p.1 ≠ k := by
  induction l with
  | nil => simp [eraseKey] at hp
  | cons q rest ih =>
    obtain ⟨k', v'⟩ := q
    rw [List.map_cons, List.nodup_cons] at hnd
    by_cases h : k = k'
    · rw [eraseKey, if_pos h] at hp
      intro hpk
      have hmem2 : p.1 ∈ rest.map Prod.fst := List.mem_map_of_mem Prod.fst hp
      rw [hpk, h] at hmem2
      exact hnd.1 hmem2
    · rw [eraseKey, if_neg h] at hp
      rcases List.mem_cons.mp hp with h1 | h1
      · rw [h1]; intro h2; exact h (h2.symm)
      · exact ih hnd.2 h1

/-- Auxiliary: a successful `put` preserves the cache invariant -- capacity at
least 1, unique keys in `cache_data`, and every cached key occurring in
`order`. -/
theorem put_preserves_inv [DecidableEq κ] {c c' : Caching.FIFOCache κ ν}
    {key : Option κ} {item : Option ν} {ev : Option κ}
    (hput : Caching.put c key item = .ok (c', ev))
    (hmax : 1 ≤ c.max_items)
    (hnd : (c.cache_data.map Prod.fst).Nodup)
    (hmem : ∀ p ∈ c.cache_data, p.1 ∈ c.order) :
    1 ≤ c'.max_items ∧ (c'.cache_data.map Prod.fst).Nodup ∧
      ∀ p ∈ c'.cache_data, p.1 ∈ c'.order := by
  cases key with
  | none =>
    simp only [Caching.put, Except.ok.injEq, Prod.mk.injEq] at hput
    obtain ⟨h1, _⟩ := hput
    rw [← h1]
    exact ⟨hmax, hnd, hmem⟩
  | some k =>
    cases item with
    | none =>
      simp only [Caching.put, Except.ok.injEq, Prod.mk.injEq] at hput
      obtain ⟨h1, _⟩ := hput
      rw [← h1]
      exact ⟨hmax, hnd, hmem⟩
    | some v =>
      simp only [Caching.put] at hput
      split at hput
      · -- eviction branch: capacity reached and key fresh
        next hcond =>
        cases horder : c.order with
        | nil => rw [horder] at hput; simp at hput
        | cons a t =>
          rw [horder] at hput
          simp only [List.head?] at hput
          split at hput
          · next hvict =>
            simp only [Except.ok.injEq, Prod.mk.injEq] at hput
            obtain ⟨h1, _⟩ := hput
            rw [← h1]
            have hknotin : k ∉ c.cache_data.map Prod.fst :=
              (containsKey_eq_false_iff k c.cache_data).mp hcond.2
            have hndE : ((eraseKey a c.cache_data).map Prod.fst).Nodup :=
              hnd.sublist (keys_eraseKey_sublist a c.cache_data)
            have hkE : containsKey k (eraseKey a c.cache_data) = false :=
              (containsKey_eq_false_iff _ _).mpr
                (fun hk => hknotin ((keys_eraseKey_sublist a c.cache_data).subset hk))
            refine ⟨hmax, ?_, ?_⟩
            · rw [keys_insertKV, if_neg (by rw [hkE]; simp)]
              simp only [List.nodup_append, List.nodup_singleton]
              refine ⟨hndE, by simp, ?_⟩
              intro x hx hxk
              rw [List.mem_singleton] at hxk
              exact hknotin (hxk ▸ (keys_eraseKey_sublist a c.cache_data).subset hx)
            · intro p hp
              rcases mem_insertKV hp with h2 | h2
              · simp [h2]
              · have hpk : p.1 ≠ a := mem_eraseKey_ne hnd h2
                have : p.1 ∈ c.order := hmem p (mem_eraseKey h2)
                rw [horder, List.mem_cons] at this
                rcases this with h3 | h3
                · exact absurd h3 hpk
                · simp [List.mem_append, h3]
          · simp at hput
      · -- plain insert (room left, or overwrite)
        simp only [Except.ok.injEq, Prod.mk.injEq] at hput
        obtain ⟨h1, _⟩ := hput
        rw [← h1]
        refine ⟨hmax, ?_, ?_⟩
        · rw [keys_insertKV]
          split
          · exact hnd
          · next hcont =>
            simp only [List.nodup_append, List.nodup_singleton]
            refine ⟨hnd, by simp, ?_⟩
            intro x hx hxk
            rw [List.mem_singleton] at hxk
            have : containsKey k c.cache_data = false := by
              cases hc : containsKey k c.cache_data
              · rfl
              · exact absurd hc hcont
            exact (containsKey_eq_false_iff k c.cache_data).mp this (hxk ▸ hx)
        · intro p hp
          rcases mem_insertKV hp with h2 | h2
          · simp [h2]
          · simp [List.mem_append, hmem p h2]

/-- C10: in every state reachable from a validly constructed cache by `put`
and `get` calls (`get` is pure and a raising `put` does not mutate), every
key held in `cache_data` occurs in the `order` list; consequently, whenever
the capacity bound is met the eviction victim `order[0]` exists. -/
theorem C10_cache_invariant [DecidableEq κ] {c : Caching.FIFOCache κ ν}
    (h : Caching.Reachable c) :
    (∀ p ∈ c.cache_data, p.1 ∈ c.order) ∧
      (c.max_items ≤ c.cache_data.length → c.order ≠ []) := by
  have main : 1 ≤ c.max_items ∧ (c.cache_data.map Prod.fst).Nodup ∧
      ∀ p ∈ c.cache_data, p.1 ∈ c.order := by
    induction h with
    | init M hM => exact ⟨hM, by simp [Caching.mkCache], by simp [Caching.mkCache]⟩
    | step key item ev hc hput ih => exact put_preserves_inv hput ih.1 ih.2.1 ih.2.2
  refine ⟨main.2.2, ?_⟩
  intro hlen hord
  have hcd : c.cache_data = [] := by
    cases hcd : c.cache_data with
    | nil => rfl
    | cons p rest =>
      have := main.2.2 p (by rw [hcd]; exact List.mem_cons_self _ _)
      rw [hord] at this
      simp at this
  rw [hcd] at hlen
  simp at hlen
  omega

/-- Witness for C10 at a concrete reachable state: a fresh capacity-1 cache
after `put(1, 0)`. -/
theorem C10_cache_invariant_witness :
    (∀ p ∈ ({ max_items := 1, cache_data := [((1 : Nat), (0 : Nat))], order := [1] } :
        Caching.FIFOCache Nat Nat).cache_data,
      p.1 ∈ ({ max_items := 1, cache_data := [((1 : Nat), (0 : Nat))], order := [1] } :
        Caching.FIFOCache Nat Nat).order) ∧
    (({ max_items := 1, cache_data := [((1 : Nat), (0 : Nat))], order := [1] } :
        Caching.FIFOCache Nat Nat).max_items ≤
        ({ max_items := 1, cache_data := [((1 : Nat), (0 : Nat))], order := [1] } :
          Caching.FIFOCache Nat Nat).cache_data.length →
      ({ max_items := 1, cache_data := [((1 : Nat), (0 : Nat))], order := [1] } :
        Caching.FIFOCache Nat Nat).order ≠ []) :=
  C10_cache_invariant
    (Caching.Reachable.step (some 1) (some 0) none
      (Caching.Reachable.init 1 (by decide)) rfl)

/-- Auxiliary: `putList` distributes over list append (run the first batch,
then the second from the resulting state, concatenating eviction logs). -/
theorem putList_append [DecidableEq κ] (c : Caching.FIFOCache κ ν)
    (xs ys : List (κ × ν)) :
    Caching.putList c (xs ++ ys) =
      match Caching.putList c xs with
      | .error e => .error e
      | .ok (c1, evs) =>
        match Caching.putList c1 ys with
        | .error e => .error e
        | .ok (c2, evs2) => .ok (c2, evs ++ evs2) := by
  induction xs generalizing c with
  | nil =>
    simp only [List.nil_append, Caching.putList]
    cases Caching.putList c ys with
    | error e => rfl
    | ok r => rfl
  | cons p xs ih =>
    obtain ⟨k, v⟩ := p
    simp only [List.cons_append, Caching.putList]
    cases Caching.put c (some k) (some v) with
    | error e => rfl
    | ok r =>
      obtain ⟨c1, ev⟩ := r
      dsimp only
      rw [show xs.append ys = xs ++ ys from rfl, ih c1]
      cases Caching.putList c1 xs with
      | error e => rfl
      | ok r2 =>
        obtain ⟨c2, evs⟩ := r2
        dsimp only
        cases Caching.putList c2 ys with
        | error e => rfl
        | ok r3 =>
          obtain ⟨c3, evs3⟩ := r3
          dsimp only
          rw [List.append_assoc]

/-- Auxiliary: inserting distinct fresh keys that fit within the remaining
capacity never evicts: starting from a cache holding exactly the keys `pre`
(in insertion order), the keys are appended one by one. -/
theorem putList_fill [DecidableEq κ] (M : Nat) (ks : List κ) :
    ∀ (pre : List κ), (pre ++ ks).Nodup → pre.length + ks.length ≤ M →
      Caching.putList
          ({ max_items := M, cache_data := pre.map (fun k => (k, ())),
             order := pre } : Caching.FIFOCache κ Unit)
          (ks.map (fun k => (k, ()))) =
        .ok ({ max_items := M, cache_data := (pre ++ ks).map (fun k => (k, ())),
               order := pre ++ ks }, []) := by
  induction ks with
  | nil =>
    intro pre _ _
    simp [Caching.putList]
  | cons k rest ih =>
    intro pre hnd hlen
    simp only [List.length_cons] at hlen
    have hlt : ¬ (M ≤ (pre.map (fun k => (k, ())) : List (κ × Unit)).length) := by
      simp only [List.length_map]
      omega
    have hk : k ∉ pre := by
      have hnd' := List.nodup_append.mp hnd
      exact fun hkp => hnd'.2.2 hkp (List.mem_cons_self _ _)
    have hnotin : containsKey k (pre.map (fun k => (k, ()))) = false := by
      rw [containsKey_eq_false_iff]
      simpa using hk
    simp only [List.map_cons, Caching.putList, Caching.put]
    rw [if_neg (fun hc => hlt hc.1)]
    dsimp only
    rw [insertKV_of_not_contains () hnotin]
    have hmapapp : pre.map (fun k => (k, ())) ++ [(k, ())] =
        (pre ++ [k]).map (fun k => (k, ())) := by
      simp
    rw [hmapapp]
    have hnd2 : ((pre ++ [k]) ++ rest).Nodup := by
      simpa [List.append_assoc] using hnd
    have hlen2 : (pre ++ [k]).length + rest.length ≤ M := by
      simp only [List.length_append, List.length_cons, List.length_nil]
      omega
    rw [ih (pre ++ [k]) hnd2 hlen2]
    dsimp only
    simp [List.append_assoc]

/-- C7: from an empty FIFO cache of capacity `M >= 1`, inserting `M + 1`
distinct keys `k0, ks...` in order (with non-`None` values) leaves exactly the
last `M` keys present, in insertion order; exactly one eviction notification
is emitted, and it carries the first-inserted key `k0`. -/
theorem C7_fifo_eviction [DecidableEq κ] (M : Nat) (hM : 1 ≤ M)
    (k0 : κ) (ks : List κ) (hlen : ks.length = M) (hnd : (k0 :: ks).Nodup) :
    Caching.putList (Caching.mkCache M : Caching.FIFOCache κ Unit)
        ((k0 :: ks).map (fun k => (k, ()))) =
      .ok ({ max_items := M,
             cache_data := ks.map (fun k => (k, ())),
             order := ks }, [k0]) := by
  have hne : ks ≠ [] := by
    intro h
    rw [h] at hlen
    simp at hlen
    omega
  obtain ⟨init, klast, hks⟩ : ∃ init klast, ks = init ++ [klast] :=
    ⟨ks.dropLast, ks.getLast hne, (List.dropLast_append_getLast hne).symm⟩
  subst hks
  have hlen1 : init.length + 1 = M := by
    simp only [List.length_append, List.length_cons, List.length_nil] at hlen
    omega
  have hsplit : k0 :: (init ++ [klast]) = (k0 :: init) ++ [klast] := by simp
  rw [hsplit, List.map_append, putList_append]
  have hnd1 : ([] ++ (k0 :: init)).Nodup := by
    rw [List.nil_append]
    exact List.Nodup.sublist
      (List.cons_sublist_cons.mpr (List.sublist_append_left init [klast])) hnd
  have hfill := putList_fill M (k0 :: init) [] hnd1
    (by simp only [List.length_nil, List.length_cons]; omega)
  have hmk : (Caching.mkCache M : Caching.FIFOCache κ Unit) =
      { max_items := M, cache_data := ([] : List κ).map (fun k => (k, ())),
        order := ([] : List κ) } := rfl
  rw [hmk, hfill]
  dsimp only
  simp only [List.nil_append]
  -- the single final put of klast on the full cache
  have hklast0 : klast ≠ k0 := by
    intro h
    rw [List.nodup_cons] at hnd
    exact hnd.1 (h ▸ List.mem_append_right init (List.mem_singleton_self klast))
  have hklasti : klast ∉ init := by
    intro h
    rw [List.nodup_cons] at hnd
    have := (List.nodup_append.mp hnd.2).2.2
    exact this h (List.mem_singleton_self klast)
  have hknotin : containsKey klast (((k0 :: init) : List κ).map (fun k => (k, ()))) = false := by
    rw [containsKey_eq_false_iff]
    intro hmem
    simp at hmem
    rcases hmem with h | h
    · exact hklast0 h
    · exact hklasti h
  have hcap : M ≤ (((k0 :: init) : List κ).map (fun k => (k, ())) : List (κ × Unit)).length := by
    simp only [List.length_map, List.length_cons]
    omega
  have hvic : containsKey k0 ((k0, ()) :: init.map (fun k => (k, ()))) = true := by
    rw [containsKey, lookupKV, if_pos rfl]
    rfl
  have herase : eraseKey k0 ((k0, ()) :: init.map (fun k => (k, ()))) =
      init.map (fun k => (k, ())) := by
    rw [eraseKey, if_pos rfl]
  have hinsert : insertKV klast () (init.map (fun k => (k, ()))) =
      (init ++ [klast]).map (fun k => (k, ())) := by
    rw [insertKV_of_not_contains ()
      (by rw [containsKey_eq_false_iff]; simpa using hklasti)]
    simp
  have hput : Caching.put
      ({ max_items := M, cache_data := ((k0 :: init) : List κ).map (fun k => (k, ())),
         order := k0 :: init } : Caching.FIFOCache κ Unit) (some klast) (some ()) =
      .ok ({ max_items := M, cache_data := (init ++ [klast]).map (fun k => (k, ())),
             order := init ++ [klast] }, some k0) := by
    simp only [Caching.put]
    rw [if_pos ⟨hcap, hknotin⟩]
    simp only [List.map_cons, List.head?]
    rw [if_pos hvic]
    simp only [List.tail_cons]
    rw [herase, hinsert]
  simp only [List.map_cons, Caching.putList]
  rw [show ((k0 :: init).map (fun k => (k, ())) : List (κ × Unit)) =
        (k0, ()) :: init.map (fun k => (k, ())) from rfl] at hput
  rw [hput]
  dsimp only
  simp [Caching.putList]

/-- Witness for C7: capacity 2, keys 1, 2, 3 -- key 1 is evicted and keys 2, 3
remain, in order. -/
theorem C7_fifo_eviction_witness :
    Caching.putList (Caching.mkCache 2 : Caching.FIFOCache Nat Unit)
        (([1, 2, 3] : List Nat).map (fun k => (k, ()))) =
      .ok ({ max_items := 2,
             cache_data := ([2, 3] : List Nat).map (fun k => (k, ())),
             order := [2, 3] }, [1]) :=
  C7_fifo_eviction 2 (by decide) 1 [2, 3] (by decide) (by decide)

/-- Auxiliary: `ceilPages L p * p` covers `L` (upper bound of ceiling division). -/
theorem le_ceilPages_mul (L p : Nat) (hp : 0 < p) : L ≤ ceilPages L p * p := by
  have h : L + p - 1 < (L + p - 1) / p * p + p := Nat.lt_div_mul_add hp
  unfold ceilPages
  generalize hm : (L + p - 1) / p * p = m at h ⊢
  omega

/-- Auxiliary: `ceilPages L p` is the least `j` with `L ≤ j * p` (minimality of
ceiling division). -/
theorem ceilPages_le (L p j : Nat) (hp : 0 < p) (hj : L ≤ j * p) : ceilPages L p ≤ j := by
  unfold ceilPages
  rw [Nat.div_le_iff_le_mul_add_pred hp, Nat.mul_comm]
  generalize hm : j * p = m at hj ⊢
  omega

/-- C6 counterexample: on a dataset of length 10 with `page_size = 5`, the
top-level `get_hyper` reports `total_pages = 10 // 5 + 1 = 3`, but
`ceil(10 / 5) = 2`. -/
theorem C6_counterexample :
    (HyperPaginationAlt.get_hyper (List.range 10) 1 5).toOption.map
        (fun r => r.total_pages) = some 3 ∧
    ceilPages 10 5 = 2 ∧ ((3 : Int) : Option Int) ≠ some ((2 : Nat) : Int) := by
  decide

/-- C6 amended: for `page >= 1` and `page_size >= 1`, the `get_hyper` of
`0x00-pagination/2-hypermedia_pagination.py` reports
`total_pages = ceil(L / page_size)` (characterised as the least `j` with
`L <= j * page_size`), while the `get_hyper` of the top-level
`2-hypermedia_pagination.py` reports `L // page_size + 1` instead, which
equals the ceiling only when `page_size` does not divide a positive `L`. -/
theorem C6_total_pages {α : Type} (ds : List α) (page ps : Int)
    (hpage : 1 ≤ page) (hps : 1 ≤ ps) :
    (∃ r, HyperPagination.get_hyper ds page ps = .ok r ∧
        ds.length ≤ r.total_pages * ps.toNat ∧
        ∀ j : Nat, ds.length ≤ j * ps.toNat → r.total_pages ≤ j) ∧
    (∃ r, HyperPaginationAlt.get_hyper ds page ps = .ok r ∧
        r.total_pages = ((ds.length / ps.toNat : Nat) : Int) + 1) := by
  have hcond : 0 < page ∧ 0 < ps := ⟨by omega, by omega⟩
  have hpsN : 0 < ps.toNat := by omega
  constructor
  · obtain ⟨pd, hpd⟩ : ∃ pd, HyperPagination.get_page ds page ps = .ok pd := by
      simp only [HyperPagination.get_page]
      rw [if_pos hcond]
      split
      · exact ⟨[], rfl⟩
      · exact ⟨_, rfl⟩
    have hgh : HyperPagination.get_hyper ds page ps =
        .ok { page_size := pd.length, page := page, data := pd,
              next_page := if page * ps < (ds.length : Int) then some (page + 1) else none,
              prev_page := if 1 < page then some (page - 1) else none,
              total_pages := ceilPages ds.length ps.toNat } := by
      simp only [HyperPagination.get_hyper]
      rw [hpd]
    exact ⟨_, hgh, le_ceilPages_mul ds.length ps.toNat hpsN,
      fun j hj => ceilPages_le ds.length ps.toNat j hpsN hj⟩
  · obtain ⟨pd, hpd⟩ : ∃ pd, HyperPaginationAlt.get_page ds page ps = .ok pd := by
      simp only [HyperPaginationAlt.get_page]
      rw [if_pos hcond]
      exact ⟨_, rfl⟩
    have hfd : ((ds.length : Int)).fdiv ps = ((ds.length / ps.toNat : Nat) : Int) := by
      rw [Int.fdiv_eq_ediv _ (by omega : (0 : Int) ≤ ps)]
      rw [Int.natCast_div]
      rw [Int.toNat_of_nonneg (by omega : (0 : Int) ≤ ps)]
    have hgh : HyperPaginationAlt.get_hyper ds page ps =
        .ok { page := page,
              page_size := if ps ≤ (pd.length : Int) then ps else (pd.length : Int),
              total_pages := (ds.length : Int).fdiv ps + 1,
              data := pd,
              prev_page := if 1 < page then some (page - 1) else none,
              next_page := if page + 1 ≤ (ds.length : Int).fdiv ps + 1 then some (page + 1)
                           else none } := by
      simp only [HyperPaginationAlt.get_hyper]
      rw [if_neg (by omega : ¬ ps = 0)]
      rw [hpd]
    exact ⟨_, hgh, by rw [hfd]⟩

/-- Witness for C6 at the concrete dataset [10, 20, 30], page 1, page size 2. -/
theorem C6_total_pages_witness :
    (∃ r, HyperPagination.get_hyper ([10, 20, 30] : List Nat) 1 2 = .ok r ∧
        ([10, 20, 30] : List Nat).length ≤ r.total_pages * (2 : Int).toNat ∧
        ∀ j : Nat, ([10, 20, 30] : List Nat).length ≤ j * (2 : Int).toNat →
          r.total_pages ≤ j) ∧
    (∃ r, HyperPaginationAlt.get_hyper ([10, 20, 30] : List Nat) 1 2 = .ok r ∧
        r.total_pages = ((([10, 20, 30] : List Nat).length / (2 : Int).toNat : Nat) : Int) + 1) :=
  C6_total_pages [10, 20, 30] 1 2 (by decide) (by decide)

/-- Auxiliary: for positive page number `i + 1` and positive `page_size`,
`get_page` succeeds and returns the slice of `page_size` records starting at
offset `i * page_size` (the empty-slice early return coincides with the slice
itself when the start is out of range). -/
theorem get_page_ok {α : Type} (ds : List α) (i N : Nat) (hN : 0 < N) :
    SimplePagination.get_page ds ((i : Int) + 1) ((N : Nat) : Int) =
      .ok ((ds.drop (i * N)).take N) := by
  have hcond : (0 : Int) < (i : Int) + 1 ∧ (0 : Int) < ((N : Nat) : Int) :=
    ⟨by omega, by exact_mod_cast hN⟩
  simp only [SimplePagination.get_page, SimplePagination.index_range]
  rw [if_pos hcond]
  have h1 : ((i : Int) + 1 - 1) * ((N : Nat) : Int) = ((i * N : Nat) : Int) := by
    push_cast
    ring
  rw [h1]
  have h2 : ((i * N : Nat) : Int) + ((N : Nat) : Int) - ((i * N : Nat) : Int) =
      ((N : Nat) : Int) := by ring
  rw [h2]
  simp only [Int.toNat_natCast]
  split
  · next h =>
    have hle : ds.length ≤ i * N := by exact_mod_cast h
    rw [List.drop_eq_nil_of_le hle]
    simp
  · rfl

/-- Auxiliary: splitting a list into `k` consecutive chunks of `N` and
concatenating them reproduces the list, provided `k * N` covers its length. -/
theorem chunks_flatten {α : Type} (N : Nat) (hN : 0 < N) :
    ∀ (k : Nat) (ds : List α), ds.length ≤ k * N →
      ((List.range k).map (fun i => (ds.drop (i * N)).take N)).flatten = ds := by
  intro k
  induction k with
  | zero =>
    intro ds h
    simp only [Nat.zero_mul] at h
    have hnil : ds = [] := List.eq_nil_of_length_eq_zero (by omega)
    simp [hnil]
  | succ k ih =>
    intro ds h
    rw [List.range_succ_eq_map]
    simp only [List.map_cons, List.map_map, List.flatten_cons, Nat.zero_mul,
      List.drop_zero]
    have hfun : ((fun i => (ds.drop (i * N)).take N) ∘ Nat.succ) =
        (fun i => (((ds.drop N).drop (i * N))).take N) := by
      funext i
      simp only [Function.comp_apply, List.drop_drop]
      rw [Nat.succ_mul, Nat.add_comm (i * N) N]
    rw [hfun]
    rw [Nat.succ_mul] at h
    rw [ih (ds.drop N) (by simp only [List.length_drop]; generalize hm : k * N = m at h ⊢; omega)]
    exact List.take_append_drop N ds

/-- C8: for every dataset and every page size `N` with `1 <= N <= L`, every
classic page `1 .. ceil(L / N)` is returned without error, and concatenating
them in order reproduces the dataset exactly. -/
theorem C8_round_trip {α : Type} (ds : List α) (N : Nat) (h1 : 1 ≤ N)
    (h2 : N ≤ ds.length) :
    (∀ i, i < ceilPages ds.length N →
        isOkB (SimplePagination.get_page ds ((i : Int) + 1) ((N : Nat) : Int)) = true) ∧
    ((List.range (ceilPages ds.length N)).map
        (fun i : Nat => okD (SimplePagination.get_page ds ((i : Int) + 1) ((N : Nat) : Int)))).flatten
      = ds := by
  constructor
  · intro i _
    rw [get_page_ok ds i N (by omega)]
    rfl
  · have hmap : ∀ i : Nat, okD (SimplePagination.get_page ds ((i : Int) + 1) ((N : Nat) : Int)) =
        (ds.drop (i * N)).take N := by
      intro i
      rw [get_page_ok ds i N (by omega)]
      rfl
    rw [List.map_congr_left (fun i _ => hmap i)]
    exact chunks_flatten N (by omega) (ceilPages ds.length N) ds
      (le_ceilPages_mul ds.length N (by omega))

/-- Witness for C8 at the dataset [10, 20, 30] with page size 2: pages
[10, 20] and [30] concatenate back to the dataset. -/
theorem C8_round_trip_witness :
    (∀ i, i < ceilPages ([10, 20, 30] : List Nat).length 2 →
        isOkB (SimplePagination.get_page ([10, 20, 30] : List Nat)
          ((i : Int) + 1) ((2 : Nat) : Int)) = true) ∧
    ((List.range (ceilPages ([10, 20, 30] : List Nat).length 2)).map
        (fun i : Nat => okD (SimplePagination.get_page ([10, 20, 30] : List Nat)
          ((i : Int) + 1) ((2 : Nat) : Int)))).flatten = [10, 20, 30] :=
  C8_round_trip [10, 20, 30] 2 (by decide) (by decide)
